import Mathlib

/-!
Verification development for the i18next-vue plugin (src/index.ts).

The file shallowly embeds the two parts of the source that the claims
concern:

1. the `TranslationComponent` interpolation renderer (src/index.ts lines
   176-205), built around the shared global regular expression
   `slotNamePattern = /{\s*([a-z0-9\-]+)\s*}/gi`;

2. the mixin installed by `install` (lines 57-160): `beforeCreate`
   (local-bundle registration, namespace handling, `__translate`) and
   `unmounted` (bundle removal), plus the global `$t` function
   (lines 103-110).

Strings are modelled as `List Char` where character-level scanning
matters, and as Lean `String` for the mixin, which treats keys opaquely.
-/

/-! ## Character classes of the slot regular expression

`slotNamePattern` is `new RegExp('{\\s*([a-z0-9\\-]+)\\s*}', 'gi')`.
`isWsChar` models `\s` on the ASCII range (space, tab, line feed,
vertical tab, form feed, carriage return).  Because the regex carries the
`i` (ignore-case) flag, the class `[a-z0-9\-]` also matches the
uppercase letters `A`-`Z`; `isNameChar` reflects that. -/

def isWsChar (c : Char) : Bool :=
  c = ' ' || c = '\t' || c = '\n' || c = '\x0b' || c = '\x0c' || c = '\r'

def isNameChar (c : Char) : Bool :=
  ('a' ≤ c && c ≤ 'z') || ('A' ≤ c && c ≤ 'Z') || ('0' ≤ c && c ≤ '9') || c = '-'

/-- Attempt to match `slotNamePattern` at the head of `l`.  The three
character classes involved (`\s`, the name class, and the literal
braces) are pairwise disjoint, so the regex's greedy matching is
deterministic and backtracking can never change the outcome; the
straight-line `takeWhile`/`dropWhile` scan below is therefore an exact
model.  On success it returns `(match[0], match[1], rest)`: the full
matched text, the captured name, and the characters after the match. -/
def matchAt : List Char → Option (List Char × List Char × List Char)
  | [] => none
  | c :: s =>
    if c ≠ '\x7b' then none else
    let ws1 := s.takeWhile isWsChar
    let s1 := s.dropWhile isWsChar
    let nm := s1.takeWhile isNameChar
    let s2 := s1.dropWhile isNameChar
    if nm = [] then none else
    let ws2 := s2.takeWhile isWsChar
    match s2.dropWhile isWsChar with
    | [] => none
    | c2 :: rest =>
      if c2 ≠ '\x7d' then none
      else some ('\x7b' :: (ws1 ++ nm ++ ws2 ++ ['\x7d']), nm, rest)

/-- Scan of `exec`: starting at absolute position `j` (with `l` the
suffix of the subject beginning at `j`), find the first position at
which the pattern matches.  Returns `(match.index, match[0], match[1])`. -/
def findFromAux : List Char → Nat → Option (Nat × List Char × List Char)
  | l, j =>
    match matchAt l with
    | some (m, nm, _) => some (j, m, nm)
    | none =>
      match l with
      | [] => none
      | _ :: s => findFromAux s (j + 1)

/-- `slotNamePattern.exec(tmpl)` with the regex's `lastIndex` equal to
`j`: the leftmost match at a position `≥ j` (`none` when there is no
such match, or when `j` exceeds the subject's length). -/
def findFrom (tmpl : List Char) (j : Nat) : Option (Nat × List Char × List Char) :=
  findFromAux (tmpl.drop j) j

/-- JavaScript `tmpl.substring(a, b)` for `a ≤ b`. -/
def jsSub (tmpl : List Char) (a b : Nat) : List Char :=
  (tmpl.take b).drop a

/-- The `while` loop of the render closure in `TranslationComponent.setup`
(lines 189-202), with the regex's persistent `lastIndex` made an explicit
argument `regexIdx` and the local variable `lastIndex` as `localLast`
(these coincide after the first iteration, and both start at 0 on a
fresh call against a reset regex).  The returned `Nat` is the regex's
`lastIndex` after the loop: when `exec` returns `null` on a `g`-flagged
regex it resets `lastIndex` to 0, so the loop always leaves it at 0.
The producers `slots` map a slot name to the (already rendered) list of
children returned by the corresponding slot function, or `none` when the
template references a slot that was not passed.  `fuel` bounds the number
of iterations; `tmpl.length + 1` always suffices because every successful
`exec` strictly advances `lastIndex`, which stays `≤ tmpl.length`. -/
def renderLoopS (slots : List Char → Option (List (List Char))) (tmpl : List Char) :
    Nat → Nat → Nat → List (List Char) × Nat
  | 0, _, localLast => ([tmpl.drop localLast], 0)
  | fuel + 1, regexIdx, localLast =>
    match findFrom tmpl regexIdx with
    | none => ([tmpl.drop localLast], 0)
    | some (mIdx, m, nm) =>
      let newIdx := mIdx + m.length
      let contrib :=
        match slots nm with
        | some out => out
        | none => [m]
      let r := renderLoopS slots tmpl fuel newIdx newIdx
      (jsSub tmpl localLast mIdx :: (contrib ++ r.1), r.2)

/-- One invocation of the render closure, given the regex state
(`slotNamePattern.lastIndex`) left behind by earlier invocations.
Returns the pushed `result` array and the regex state afterwards. -/
def renderS (slots : List Char → Option (List (List Char))) (tmpl : List Char)
    (regexState : Nat) : List (List Char) × Nat :=
  renderLoopS slots tmpl (tmpl.length + 1) regexState 0

/-- The rendered output of `TranslationComponent` on a fresh (reset) regex. -/
def render (slots : List Char → Option (List (List Char))) (tmpl : List Char) :
    List (List Char) :=
  (renderS slots tmpl 0).1

/-! ## The segment view of the scan

The spec describes the scan as producing a sequence of Segments:
Literal text (exactly the `substring` pushes of the loop, including the
empty ones) and SlotReferences (a captured name together with the full
matched text `match[0]`). -/

inductive Seg where
  | lit : List Char → Seg
  | slotRef : List Char → List Char → Seg
deriving DecidableEq

/-- The segment sequence produced by the scan loop from position `p`. -/
def parseLoop (tmpl : List Char) : Nat → Nat → List Seg
  | 0, p => [Seg.lit (tmpl.drop p)]
  | fuel + 1, p =>
    match findFrom tmpl p with
    | none => [Seg.lit (tmpl.drop p)]
    | some (mIdx, m, nm) =>
      Seg.lit (jsSub tmpl p mIdx) :: Seg.slotRef nm m :: parseLoop tmpl fuel (mIdx + m.length)

/-- The segment sequence of a template (fresh scan from position 0). -/
def parse (tmpl : List Char) : List Seg :=
  parseLoop tmpl (tmpl.length + 1) 0

/-- The original text a segment stands for: Literal text verbatim, a
SlotReference's full matched substring. -/
def segText : Seg → List Char
  | Seg.lit t => t
  | Seg.slotRef _ m => m

/-- What a segment contributes to the rendered output: a Literal is one
element; a SlotReference is the producer's full output when the slot is
present, and the single element `match[0]` otherwise. -/
def segContrib (slots : List Char → Option (List (List Char))) : Seg → List (List Char)
  | Seg.lit t => [t]
  | Seg.slotRef nm m =>
    match slots nm with
    | some out => out
    | none => [m]

def Seg.isSlotRef : Seg → Bool
  | Seg.slotRef _ _ => true
  | _ => false

def Seg.isLit : Seg → Bool
  | Seg.lit _ => true
  | _ => false

/-- Number of recognized placeholders in a segment list. -/
def numSlots (segs : List Seg) : Nat := segs.countP Seg.isSlotRef

/-- Number of literal elements in a segment list. -/
def numLits (segs : List Seg) : Nat := segs.countP Seg.isLit

/-- The alternating shape `lit, slot, lit, slot, ..., lit`: the list
starts with a literal, ends with a literal, and literals and slot
references strictly alternate. -/
def altShape : List Seg → Bool
  | [Seg.lit _] => true
  | Seg.lit _ :: Seg.slotRef _ _ :: rest => altShape rest
  | _ => false

/-! ## The mixin and the global translate function

The `beforeCreate`/`unmounted` mixin (src/index.ts lines 57-101),
`handleI18nOptions` (135-160), `includesNs` (130-133) and `$t`
(103-110).  Calls into the external i18next catalog
(`addResourceBundle`, `removeResourceBundle`, `loadNamespaces`,
`getFixedT`) are modelled by recording the arguments the source passes
to them; the catalog's own behaviour is outside the repository. -/

/-- The `Messages` type of src/index.ts: a JSON-like tree of strings. -/
inductive Msg where
  | str : String → Msg
  | obj : List (String × Msg) → Msg

/-- One `i18next.addResourceBundle(lng, ns, resources, deep, overwrite)`
invocation, argument for argument. -/
structure AddCall where
  lng : String
  ns : String
  resources : Msg
  deep : Bool
  overwrite : Bool

/-- The `namespaces` option (and `i18next.options.defaultNS`): either a
single string or an array of strings. -/
def NsOpt := Sum String (List String)

/-- The `i18nOptions` component option (src/index.ts lines 20-25).
`keyPfx` models `keyPrefix` (renamed for this development); `messages`
is the option's message tree with its top-level language keys already
split into entries, as `Object.entries` does in `loadBundle`. -/
structure I18nOpts where
  lng : Option String
  namespaces : Option NsOpt
  keyPfx : Option String
  messages : Option (List (String × Msg))

/-- The per-component inputs of `beforeCreate`: the component's `name`
option, the parsed contents of its `<i18n>` blocks (`__i18n` holds JSON
strings; we model them after `JSON.parse`, again with top-level language
keys split into entries), and `i18nOptions`. -/
structure CompOpts where
  name : Option String
  i18nBlocks : Option (List (List (String × Msg)))
  i18nOptions : Option I18nOpts

/-- The relevant configuration of the i18next instance handed to
`install`: `options.defaultNS`, `options.nsSeparator` (`some` exactly
when it is a string), and `isInitialized`. -/
structure I18nextCfg where
  defaultNS : Option NsOpt
  nsSeparator : Option String
  isInitialized : Bool

/-- JavaScript `s.includes(sub)` (substring containment). -/
def listIncludes (sub : List Char) : List Char → Bool
  | [] => sub.isEmpty
  | c :: rest => sub.isPrefixOf (c :: rest) || listIncludes sub rest

def jsIncludes (s sub : String) : Bool := listIncludes sub.data s.data

/-- The helper `includesNs` (lines 130-133): true when `nsSeparator` is
a string and the key contains it. -/
def includesNs (nsSep : Option String) (key : String) : Bool :=
  match nsSep with
  | some sep => jsIncludes key sep
  | none => false

/-- The component-local namespace (lines 66-68):
`[name, rand].filter(x => !!x).join("-")`, where `rand` stands for the
8-digit random string.  An absent name and an empty-string name are both
falsy, so both are modelled by filtering out the empty string. -/
def localNsOf (name : Option String) (rand : String) : String :=
  String.intercalate "-" (([name.getD "", rand]).filter (fun x => x ≠ ""))

/-- The `__translate` closure (lines 90-96), modelled by the key it
hands to the underlying fixed translation function `t` (which is
external i18next state): `!keyPrefix || includesNs(key)` leaves the key
unchanged, otherwise `keyPrefix + '.' + key` is passed.  An absent and
an empty `keyPrefix` are both falsy, hence both modelled via `getD ""`. -/
def mkTranslate (keyPfx : Option String) (nsSep : Option String) (key : String) : String :=
  let kp := keyPfx.getD ""
  if kp = "" || includesNs nsSep key then key
  else kp ++ "." ++ key

/-- The `loadBundle` closure (lines 72-77): for each `Object.entries`
pair `(lng, resources)` of a bundle it calls
`addResourceBundle(lng, localNs, resources, true, false)` and pushes
`[lng, localNs]` onto `__bundles`; each list entry below pairs the
recorded call with the pushed identifier. -/
def loadBundle (localNs : String) (bundle : List (String × Msg)) :
    List (AddCall × (String × String)) :=
  bundle.map (fun e => (⟨e.1, localNs, e.2, true, false⟩, (e.1, localNs)))

/-- Result of `handleI18nOptions` (lines 135-160) together with the side
effects it triggers: the destructured `lng`/`ns`/`keyPrefix`, the
`loadBundle(messages)` effects, and the `loadNamespaces` calls. -/
structure HandleOut where
  lng : Option String
  ns : Option (List String)
  keyPfx : Option String
  effects : List (AddCall × (String × String))
  loadNs : List (List String)

/-- `handleI18nOptions` (lines 135-160).  With no `i18nOptions`
everything stays undefined and nothing is loaded.  Otherwise
`namespaces` defaults to `i18next.options.defaultNS`, `messages` is
loaded as a bundle, a string `namespaces` is wrapped into a one-element
array, and a present `ns` is passed to `loadNamespaces`. -/
def handleI18nOptions (cfg : I18nextCfg) (localNs : String) :
    Option I18nOpts → HandleOut
  | none => ⟨none, none, none, [], []⟩
  | some io =>
    let namespaces :=
      match io.namespaces with
      | some v => some v
      | none => cfg.defaultNS
    let effects :=
      match io.messages with
      | some m => loadBundle localNs m
      | none => []
    let ns : Option (List String) :=
      match namespaces with
      | some (Sum.inl s) => some [s]
      | some (Sum.inr l) => some l
      | none => none
    ⟨io.lng, ns, io.keyPfx,
     effects, match ns with | some l => [l] | none => []⟩

/-- The component translation context built by `beforeCreate`:
`__bundles` (`none` when the early return left it unallocated), the
recorded `addResourceBundle` calls in order, the `loadNamespaces` calls,
the final `lng`/`ns` passed to `getTranslationFunction`, the
`keyPrefix`, and `__translate` modelled as the downstream-key function. -/
structure Ctx where
  bundles : Option (List (String × String))
  addCalls : List AddCall
  loadNs : List (List String)
  lng : Option String
  ns : Option (List String)
  keyPfx : Option String
  translate : Option (String → String)

/-- `beforeCreate` (lines 58-97).  Components with neither `__i18n`
blocks nor `i18nOptions` get `__translate = undefined` and no
`__bundles`.  Otherwise the `<i18n>` block bundles are loaded first,
then `handleI18nOptions` runs (loading `messages`), then — if any
bundle was registered — the component-local namespace is prepended to
the namespace list, and `__translate` is built. -/
def componentEffects (cfg : I18nextCfg) (localNs : String) (opts : CompOpts) :
    List (AddCall × (String × String)) :=
  ((opts.i18nBlocks.getD []).map (loadBundle localNs)).flatten ++
    (handleI18nOptions cfg localNs opts.i18nOptions).effects

def beforeCreate (cfg : I18nextCfg) (rand : String) (opts : CompOpts) : Ctx :=
  if opts.i18nBlocks.isNone && opts.i18nOptions.isNone then
    ⟨none, [], [], none, none, none, none⟩
  else
    let localNs := localNsOf opts.name rand
    let h := handleI18nOptions cfg localNs opts.i18nOptions
    let effects := componentEffects cfg localNs opts
    let bundles := effects.map (fun e => e.2)
    let ns :=
      if bundles.isEmpty then h.ns
      else some (localNs :: (h.ns.getD []))
    ⟨some bundles, effects.map (fun e => e.1), h.loadNs,
     h.lng, ns, h.keyPfx, some (mkTranslate h.keyPfx cfg.nsSeparator)⟩

/-- The `unmounted` hook (lines 98-100): the `removeResourceBundle`
calls `(lng, ns)` performed at teardown, in order.  `__bundles?.forEach`
does nothing when `__bundles` is undefined. -/
def unmounted (c : Ctx) : List (String × String) :=
  c.bundles.getD []

/-- Observable events of one `$t` call: the read of the reactivity
marker (`usingI18n()`, which reads `lastI18nChange.value`) and a
delegation to a lookup function with the given key. -/
inductive TEvent where
  | observe : TEvent
  | lookupCall : String → TEvent
deriving DecidableEq

/-- The global `$t` (lines 103-110): `usingI18n()` runs first,
unconditionally; then, if i18next is initialized, the call delegates to
`this?.__translate ?? genericT`; otherwise the raw key is returned with
no lookup.  The event list records what happened, in order. -/
def dollarT (isInit : Bool) (translate : Option (String → String))
    (genericT : String → String) (key : String) : List TEvent × String :=
  let ev := [TEvent.observe]
  if isInit then
    (ev ++ [TEvent.lookupCall key], (translate.getD genericT) key)
  else
    (ev, key)

/-! ## Lemmas about the scanner -/

theorem takeWhile_append_all (p : Char → Bool) :
    ∀ (xs ys : List Char), (∀ c ∈ xs, p c = true) →
      (∀ c, ys.head? = some c → p c = false) →
      (xs ++ ys).takeWhile p = xs ∧ (xs ++ ys).dropWhile p = ys := by
  intro xs
  induction xs with
  | nil =>
    intro ys h1 h2
    cases ys with
    | nil => exact ⟨rfl, rfl⟩
    | cons c ys =>
      refine ⟨?_, ?_⟩ <;>
        simp [List.takeWhile_cons, List.dropWhile_cons, h2 c rfl]
  | cons c xs ih =>
    intro ys h1 h2
    have hc : p c = true := h1 c (by simp)
    have hrec := ih ys (fun a ha => h1 a (by simp [ha])) h2
    refine ⟨?_, ?_⟩ <;>
      simp [List.takeWhile_cons, List.dropWhile_cons, hc, hrec.1, hrec.2]

theorem ws_not_nameChar (c : Char) (h : isWsChar c = true) : isNameChar c = false := by
  simp only [isWsChar, Bool.or_eq_true, decide_eq_true_eq] at h
  rcases h with ((((h | h) | h) | h) | h) | h <;> subst h <;> decide

theorem nameChar_not_ws (c : Char) (h : isNameChar c = true) : isWsChar c = false := by
  cases hw : isWsChar c
  · rfl
  · rw [ws_not_nameChar c hw] at h; cases h

/-- Forward characterization of a successful match: the matched text has
the shape `'{' ws name ws '}'`, and the match splits the input. -/
theorem matchAt_some : ∀ l m nm rest, matchAt l = some (m, nm, rest) →
    ∃ ws1 ws2, (∀ c ∈ ws1, isWsChar c = true) ∧ (∀ c ∈ ws2, isWsChar c = true) ∧
      nm ≠ [] ∧ (∀ c ∈ nm, isNameChar c = true) ∧
      m = '\x7b' :: (ws1 ++ nm ++ ws2 ++ ['\x7d']) ∧ l = m ++ rest := by
  intro l m nm rest h
  match l with
  | [] => simp [matchAt] at h
  | c :: s =>
    simp only [matchAt] at h
    split at h
    · exact absurd h (by simp)
    · rename_i hc
      split at h
      · exact absurd h (by simp)
      · rename_i hnm
        split at h
        · exact absurd h (by simp)
        · rename_i c2 rest2 hdrop
          split at h
          · exact absurd h (by simp)
          · rename_i hc2
            simp only [Option.some.injEq, Prod.mk.injEq] at h
            obtain ⟨hm, hnm2, hrest⟩ := h
            refine ⟨s.takeWhile isWsChar,
                (s.dropWhile isWsChar |>.dropWhile isNameChar).takeWhile isWsChar,
                fun a ha => List.mem_takeWhile_imp ha,
                fun a ha => List.mem_takeWhile_imp ha, ?_, ?_, ?_, ?_⟩
            · rw [← hnm2]; exact hnm
            · intro a ha
              rw [← hnm2] at ha
              exact List.mem_takeWhile_imp ha
            · rw [← hm, ← hnm2]
            · push_neg at hc hc2
              subst hc
              rw [← hm, ← hrest]
              have e1 := List.takeWhile_append_dropWhile isWsChar s
              have e2 := List.takeWhile_append_dropWhile isNameChar (s.dropWhile isWsChar)
              have e3 := List.takeWhile_append_dropWhile isWsChar
                ((s.dropWhile isWsChar).dropWhile isNameChar)
              rw [hdrop] at e3
              subst hc2
              simp only [List.cons_append, List.append_assoc, List.cons.injEq, true_and,
                List.nil_append]
              rw [e3, e2, e1]

/-- Backward direction: any string of that shape is matched, with that
decomposition. -/
theorem matchAt_of_shape (ws1 ws2 nm rest : List Char)
    (h1 : ∀ c ∈ ws1, isWsChar c = true) (h2 : ∀ c ∈ ws2, isWsChar c = true)
    (hne : nm ≠ []) (hnm : ∀ c ∈ nm, isNameChar c = true) :
    matchAt (('\x7b' :: (ws1 ++ nm ++ ws2 ++ ['\x7d'])) ++ rest) =
      some ('\x7b' :: (ws1 ++ nm ++ ws2 ++ ['\x7d']), nm, rest) := by
  have hw1 := takeWhile_append_all isWsChar ws1 (nm ++ (ws2 ++ '\x7d' :: rest)) h1
    (by
      intro a ha
      cases nm with
      | nil => exact absurd rfl hne
      | cons b nm =>
        simp only [List.cons_append, List.head?_cons, Option.some.injEq] at ha
        subst ha
        exact nameChar_not_ws _ (hnm _ (by simp)))
  have hn := takeWhile_append_all isNameChar nm (ws2 ++ '\x7d' :: rest) hnm
    (by
      intro a ha
      cases ws2 with
      | nil =>
        simp only [List.nil_append, List.head?_cons, Option.some.injEq] at ha
        subst ha; decide
      | cons b ws2 =>
        simp only [List.cons_append, List.head?_cons, Option.some.injEq] at ha
        subst ha
        exact ws_not_nameChar _ (h2 _ (by simp)))
  have hw2 := takeWhile_append_all isWsChar ws2 ('\x7d' :: rest) h2
    (by
      intro a ha
      simp only [List.head?_cons, Option.some.injEq] at ha
      subst ha; decide)
  simp only [matchAt, List.cons_append, List.append_assoc, List.singleton_append,
    List.nil_append]
  rw [if_neg (by simp)]
  rw [hw1.1, hw1.2, hn.1, hn.2, hw2.1, hw2.2]
  rw [if_neg hne]
  simp

/-- A successful match splits the input and is nonempty. -/
theorem matchAt_split (l m nm rest : List Char) (h : matchAt l = some (m, nm, rest)) :
    l = m ++ rest ∧ 1 ≤ m.length := by
  obtain ⟨ws1, ws2, -, -, -, -, hm, hl⟩ := matchAt_some l m nm rest h
  exact ⟨hl, by rw [hm]; simp⟩

theorem findFromAux_some : ∀ (l : List Char) (j i : Nat) (m nm : List Char),
    findFromAux l j = some (i, m, nm) →
    j ≤ i ∧ ∃ rest, matchAt (l.drop (i - j)) = some (m, nm, rest) := by
  intro l
  induction l with
  | nil =>
    intro j i m nm h
    simp [findFromAux, matchAt] at h
  | cons c s ih =>
    intro j i m nm h
    rw [findFromAux] at h
    cases hm : matchAt (c :: s) with
    | some v =>
      obtain ⟨m0, nm0, rest0⟩ := v
      rw [hm] at h
      simp only [Option.some.injEq, Prod.mk.injEq] at h
      obtain ⟨rfl, rfl, rfl⟩ := h
      exact ⟨le_refl j, rest0, by simpa using hm⟩
    | none =>
      rw [hm] at h
      obtain ⟨hji, rest, hmr⟩ := ih (j + 1) i m nm h
      refine ⟨by omega, rest, ?_⟩
      have : i - j = (i - (j + 1)) + 1 := by omega
      rw [this, List.drop_succ_cons]
      exact hmr

/-- What a successful `exec` at `lastIndex = j` guarantees: the match
index is at least `j`, the match is a real occurrence of the pattern at
that index, and `match.index + match[0].length` stays within the string. -/
theorem findFrom_some (tmpl : List Char) (j i : Nat) (m nm : List Char)
    (h : findFrom tmpl j = some (i, m, nm)) :
    j ≤ i ∧ matchAt (tmpl.drop i) = some (m, nm, tmpl.drop (i + m.length)) ∧
      i + m.length ≤ tmpl.length ∧ 1 ≤ m.length := by
  obtain ⟨hji, rest, hmr⟩ := findFromAux_some (tmpl.drop j) j i m nm h
  rw [List.drop_drop] at hmr
  have hij : j + (i - j) = i := by omega
  rw [hij] at hmr
  obtain ⟨hsplit, hm1⟩ := matchAt_split _ _ _ _ hmr
  have hlen : m.length + rest.length = tmpl.length - i := by
    have := congrArg List.length hsplit
    simp only [List.length_append, List.length_drop] at this
    omega
  have hile : i ≤ tmpl.length := by
    by_contra hgt
    push_neg at hgt
    have : tmpl.drop i = [] := List.drop_eq_nil_of_le (by omega)
    rw [this] at hsplit
    have := congrArg List.length hsplit
    simp only [List.length_append, List.length_nil] at this
    omega
  have hrest : rest = tmpl.drop (i + m.length) := by
    have : (m ++ rest).drop m.length = rest := List.drop_left m rest
    rw [← hsplit] at this
    rw [← this, List.drop_drop]
  subst hrest
  exact ⟨hji, hmr, by omega, hm1⟩

theorem jsSub_append_drop (t : List Char) (p i : Nat) (h1 : p ≤ i) (h2 : i ≤ t.length) :
    jsSub t p i ++ t.drop i = t.drop p := by
  unfold jsSub
  conv_rhs => rw [← List.take_append_drop i t]
  rw [List.drop_append_eq_append_drop]
  have hl : (t.take i).length = i := by
    rw [List.length_take]; omega
  rw [hl]
  have hp : p - i = 0 := by omega
  rw [hp, List.drop_zero]

/-- The loop pushes exactly the segments' contributions, in order
(stated for a fresh scan, where the regex index and the local
`lastIndex` coincide). -/
theorem renderLoopS_eq_parseLoop (slots : List Char → Option (List (List Char)))
    (tmpl : List Char) : ∀ (fuel p : Nat),
    (renderLoopS slots tmpl fuel p p).1 =
      ((parseLoop tmpl fuel p).map (segContrib slots)).flatten := by
  intro fuel
  induction fuel with
  | zero => intro p; simp [renderLoopS, parseLoop, segContrib]
  | succ fuel ih =>
    intro p
    rw [renderLoopS, parseLoop]
    cases hf : findFrom tmpl p with
    | none => simp [segContrib]
    | some v =>
      obtain ⟨i, m, nm⟩ := v
      simp only [List.map_cons, List.flatten_cons, segContrib]
      rw [ih]
      cases slots nm <;> simp

/-- Concatenating the segments' original text reconstructs the entire
remaining input, from any scan position. -/
theorem parseLoop_reconstruct (tmpl : List Char) : ∀ (fuel p : Nat),
    ((parseLoop tmpl fuel p).map segText).flatten = tmpl.drop p := by
  intro fuel
  induction fuel with
  | zero => intro p; simp [parseLoop, segText]
  | succ fuel ih =>
    intro p
    rw [parseLoop]
    cases hf : findFrom tmpl p with
    | none => simp [segText]
    | some v =>
      obtain ⟨i, m, nm⟩ := v
      obtain ⟨hpi, hmatch, hlen, hm1⟩ := findFrom_some tmpl p i m nm hf
      have hdecomp : m ++ tmpl.drop (i + m.length) = tmpl.drop i :=
        (matchAt_split _ _ _ _ hmatch).1.symm
      simp only [List.map_cons, List.flatten_cons, segText]
      rw [ih (i + m.length)]
      rw [← List.append_assoc, List.append_assoc (jsSub tmpl p i), hdecomp]
      exact jsSub_append_drop tmpl p i hpi (by omega)

/-- The regex's `lastIndex` is 0 after every complete render call:
the loop only terminates through an `exec` that returned `null`, which
resets `lastIndex` on a global regex. -/
theorem renderLoopS_snd (slots : List Char → Option (List (List Char)))
    (tmpl : List Char) : ∀ (fuel ri li : Nat),
    (renderLoopS slots tmpl fuel ri li).2 = 0 := by
  intro fuel
  induction fuel with
  | zero => intro ri li; simp [renderLoopS]
  | succ fuel ih =>
    intro ri li
    rw [renderLoopS]
    cases hf : findFrom tmpl ri with
    | none => simp
    | some v =>
      obtain ⟨i, m, nm⟩ := v
      simp [ih]

/-- Every scan yields the alternating shape literal, slot, literal, …,
literal. -/
theorem parseLoop_altShape (tmpl : List Char) : ∀ (fuel p : Nat),
    altShape (parseLoop tmpl fuel p) = true := by
  intro fuel
  induction fuel with
  | zero => intro p; simp [parseLoop, altShape]
  | succ fuel ih =>
    intro p
    rw [parseLoop]
    cases hf : findFrom tmpl p with
    | none => simp [altShape]
    | some v =>
      obtain ⟨i, m, nm⟩ := v
      simpa [altShape] using ih (i + m.length)

/-- Every scan produces exactly one more literal element than slot
references. -/
theorem parseLoop_counts (tmpl : List Char) : ∀ (fuel p : Nat),
    numLits (parseLoop tmpl fuel p) = numSlots (parseLoop tmpl fuel p) + 1 := by
  intro fuel
  induction fuel with
  | zero =>
    intro p
    simp [parseLoop, numLits, numSlots, Seg.isLit, Seg.isSlotRef]
  | succ fuel ih =>
    intro p
    rw [parseLoop]
    cases hf : findFrom tmpl p with
    | none => simp [numLits, numSlots, Seg.isLit, Seg.isSlotRef]
    | some v =>
      obtain ⟨i, m, nm⟩ := v
      simpa [numLits, numSlots, List.countP_cons, Seg.isLit, Seg.isSlotRef] using
        ih (i + m.length)

/-- Every slot reference the scan emits has a nonempty name drawn from
the (case-insensitive) name character class. -/
theorem parseLoop_slot_names (tmpl : List Char) : ∀ (fuel p : Nat) (nm m : List Char),
    Seg.slotRef nm m ∈ parseLoop tmpl fuel p →
    nm ≠ [] ∧ (∀ c ∈ nm, isNameChar c = true) := by
  intro fuel
  induction fuel with
  | zero =>
    intro p nm m h
    simp [parseLoop] at h
  | succ fuel ih =>
    intro p nm m h
    rw [parseLoop] at h
    cases hf : findFrom tmpl p with
    | none => rw [hf] at h; simp at h
    | some v =>
      obtain ⟨i, m0, nm0⟩ := v
      rw [hf] at h
      simp only [List.mem_cons] at h
      rcases h with h | h | h
      · cases h
      · obtain ⟨-, hmatch, -, -⟩ := findFrom_some tmpl p i m0 nm0 hf
        obtain ⟨ws1, ws2, -, -, hne, hchars, -, -⟩ := matchAt_some _ _ _ _ hmatch
        injection h with h1 h2
        subst h1
        exact ⟨hne, hchars⟩
      · exact ih (i + m0.length) nm m h

/-- With no producers at all, every contribution is the single original
text of its segment. -/
theorem segContrib_none_flatten : ∀ segs : List Seg,
    (segs.map (segContrib (fun _ => none))).flatten = segs.map segText := by
  intro segs
  induction segs with
  | nil => rfl
  | cons s segs ih => cases s <;> simp [segContrib, segText, ih]

/-- A template with no recognized placeholder scans to the single
literal segment holding the whole input. -/
theorem parse_no_slots (tmpl : List Char) (h : numSlots (parse tmpl) = 0) :
    parse tmpl = [Seg.lit tmpl] := by
  rw [parse] at h ⊢
  rw [parseLoop] at h ⊢
  cases hf : findFrom tmpl 0 with
  | none => simp
  | some v =>
    obtain ⟨i, m, nm⟩ := v
    rw [hf] at h
    simp [numSlots, List.countP_cons, Seg.isSlotRef] at h

/-- The slot producers of the worked example: `name` yields `Bob`,
`count` yields `5`. -/
def exSlots : List Char → Option (List (List Char)) := fun nm =>
  if nm = "name".data then some ["Bob".data]
  else if nm = "count".data then some ["5".data]
  else none

/-- Claim C1: for every template string, concatenating each literal
element verbatim and replacing each recognized slot occurrence by its
original matched substring reconstructs the input exactly (both at the
segment level and for the rendered output with no producers, where the
code emits exactly the matched text for every slot). -/
theorem c1_render_roundtrip : ∀ tmpl : List Char,
    ((parse tmpl).map segText).flatten = tmpl ∧
    (render (fun _ => none) tmpl).flatten = tmpl := by
  intro tmpl
  have h1 : ((parse tmpl).map segText).flatten = tmpl := by
    have := parseLoop_reconstruct tmpl (tmpl.length + 1) 0
    simpa [parse] using this
  refine ⟨h1, ?_⟩
  have h2 : render (fun _ => none) tmpl = (parse tmpl).map segText := by
    rw [render, renderS, renderLoopS_eq_parseLoop]
    exact segContrib_none_flatten (parse tmpl)
  rw [h2, h1]

/-- Claim C5: the rendered output is exactly the in-order flattening of
each segment's contribution — a present producer's full output for its
slot occurrence, the original matched text for a producer-less slot —
and on the worked example this yields Hello, Bob, 5 as stated. -/
theorem c5_slot_substitution : ∀ (slots : List Char → Option (List (List Char)))
    (tmpl : List Char),
    render slots tmpl = ((parse tmpl).map (segContrib slots)).flatten ∧
    render exSlots ("Hello \x7bname\x7d, you have \x7bcount\x7d items".data) =
      ["Hello ".data, "Bob".data, ", you have ".data, "5".data, " items".data] := by
  intro slots tmpl
  constructor
  · rw [render, renderS, renderLoopS_eq_parseLoop]; rfl
  · decide

/-- Claim C6 counterexample: the regular expression carries the `i`
(ignore-case) flag, so the name class also matches uppercase letters.
The substring of three characters brace, capital A, brace is recognized
as a slot (and rendered through its producer), although its name
consists neither of lowercase letters, digits nor hyphens. -/
theorem c6_counterexample :
    matchAt ("\x7bA\x7d".data) = some ("\x7bA\x7d".data, ['A'], []) ∧
    ('A'.isLower || 'A'.isDigit || 'A' = '-' : Bool) = false ∧
    render (fun nm => if nm = ['A'] then some [['!']] else none) ("\x7bA\x7d".data) =
      [[], ['!'], []] := by decide

/-- Claim C6 (amended): a substring is recognized as a slot if and only
if it is an opening brace, optional whitespace, a nonempty name of
letters (matched case-insensitively, so uppercase as well as lowercase),
digits and hyphens, optional whitespace, and a closing brace; and every
slot reference the scan of any template emits has such a name.  All
other input is passed through as literal text (the scan is total). -/
theorem c6_slot_recognition : ∀ l m nm rest : List Char,
    (matchAt l = some (m, nm, rest) ↔
      ∃ ws1 ws2, (∀ c ∈ ws1, isWsChar c = true) ∧ (∀ c ∈ ws2, isWsChar c = true) ∧
        nm ≠ [] ∧ (∀ c ∈ nm, isNameChar c = true) ∧
        m = '\x7b' :: (ws1 ++ nm ++ ws2 ++ ['\x7d']) ∧ l = m ++ rest) ∧
    (∀ tmpl, Seg.slotRef nm m ∈ parse tmpl →
      nm ≠ [] ∧ ∀ c ∈ nm, isNameChar c = true) := by
  intro l m nm rest
  constructor
  · constructor
    · exact matchAt_some l m nm rest
    · rintro ⟨ws1, ws2, h1, h2, hne, hn, rfl, rfl⟩
      exact matchAt_of_shape ws1 ws2 nm rest h1 h2 hne hn
  · intro tmpl h
    exact parseLoop_slot_names tmpl _ _ nm m h

/-- Claim C9: the renderer is restartable despite the shared global-flag
regular expression — a complete call always leaves the scan position at
0, so a second render of the same input (from the state the first one
left behind) produces exactly the same output as a fresh render. -/
theorem c9_restartable : ∀ (slots : List Char → Option (List (List Char)))
    (tmpl : List Char) (st : Nat),
    (renderS slots tmpl st).2 = 0 ∧
    renderS slots tmpl ((renderS slots tmpl st).2) = renderS slots tmpl 0 := by
  intro slots tmpl st
  have h : (renderS slots tmpl st).2 = 0 :=
    renderLoopS_snd slots tmpl (tmpl.length + 1) st 0
  exact ⟨h, by rw [h]⟩

/-- Claim C10 counterexample: rendering the template brace-a-brace
brace-b-brace with no producers yields five elements — the empty literal
between the two adjacent placeholders is a separate element — not the
four-element sequence stated in the claim. -/
theorem c10_counterexample :
    render (fun _ => none) ("\x7ba\x7d\x7bb\x7d".data) =
      [[], "\x7ba\x7d".data, [], "\x7bb\x7d".data, []] ∧
    render (fun _ => none) ("\x7ba\x7d\x7bb\x7d".data) ≠
      [[], "\x7ba\x7d".data, "\x7bb\x7d".data, []] := by decide

/-- Claim C10 (amended): the scan of any template has the alternating
shape literal, slot, …, literal with exactly k+1 literal elements for k
recognized placeholders (empty literals included, also between two
adjacent placeholders); the rendered output is the in-order flattening
of the segments' contributions; with zero placeholders the output is the
single element equal to the whole input; and the two-placeholder example
renders to five elements including the empty literal between them. -/
theorem c10_output_shape : ∀ (slots : List Char → Option (List (List Char)))
    (tmpl : List Char),
    altShape (parse tmpl) = true ∧
    numLits (parse tmpl) = numSlots (parse tmpl) + 1 ∧
    render slots tmpl = ((parse tmpl).map (segContrib slots)).flatten ∧
    (numSlots (parse tmpl) = 0 → render slots tmpl = [tmpl]) ∧
    render (fun _ => none) ("\x7ba\x7d\x7bb\x7d".data) =
      [[], "\x7ba\x7d".data, [], "\x7bb\x7d".data, []] := by
  intro slots tmpl
  have hb : render slots tmpl = ((parse tmpl).map (segContrib slots)).flatten := by
    rw [render, renderS, renderLoopS_eq_parseLoop]; rfl
  refine ⟨parseLoop_altShape tmpl _ _, parseLoop_counts tmpl _ _, hb, ?_, by decide⟩
  intro h
  rw [hb, parse_no_slots tmpl h]
  simp [segContrib]

/-! ## Lemmas about the mixin -/

theorem loadBundle_mem (localNs : String) (b : List (String × Msg)) :
    ∀ e ∈ loadBundle localNs b,
      e.2 = (e.1.lng, e.1.ns) ∧ e.1.deep = true ∧ e.1.overwrite = false ∧
        e.1.ns = localNs := by
  intro e he
  rw [loadBundle, List.mem_map] at he
  obtain ⟨a, ha, rfl⟩ := he
  exact ⟨rfl, rfl, rfl, rfl⟩

/-- Every bundle-registration effect a component performs carries the
fixed flags `deep = true`, `overwrite = false`, targets the
component-local namespace, and pushes exactly its own
`(language, namespace)` pair. -/
theorem componentEffects_mem (cfg : I18nextCfg) (localNs : String) (opts : CompOpts) :
    ∀ e ∈ componentEffects cfg localNs opts,
      e.2 = (e.1.lng, e.1.ns) ∧ e.1.deep = true ∧ e.1.overwrite = false ∧
        e.1.ns = localNs := by
  intro e he
  rw [componentEffects, List.mem_append] at he
  rcases he with he | he
  · rw [List.mem_flatten] at he
    obtain ⟨l, hl, hel⟩ := he
    rw [List.mem_map] at hl
    obtain ⟨b, hb, rfl⟩ := hl
    exact loadBundle_mem localNs b e hel
  · cases ho : opts.i18nOptions with
    | none => rw [ho] at he; simp [handleI18nOptions] at he
    | some io =>
      rw [ho] at he
      cases hm : io.messages with
      | none => simp [handleI18nOptions, hm] at he
      | some msgs =>
        simp only [handleI18nOptions, hm] at he
        exact loadBundle_mem localNs msgs e he

/-- Claim C2: teardown removes exactly the registered bundles — the
removal list equals, pair for pair and in order (hence as a set and in
count), the `(language, namespace)` pairs of the `addResourceBundle`
calls made during setup; and a component with no registered bundles
(including one that never allocated a context, whose `__bundles` stays
undefined) performs no removal. -/
theorem c2_teardown : ∀ (cfg : I18nextCfg) (rand : String) (opts : CompOpts),
    unmounted (beforeCreate cfg rand opts) =
      (beforeCreate cfg rand opts).addCalls.map (fun a => (a.lng, a.ns)) ∧
    (unmounted (beforeCreate cfg rand opts)).length =
      (beforeCreate cfg rand opts).addCalls.length ∧
    ((beforeCreate cfg rand opts).bundles = none →
      unmounted (beforeCreate cfg rand opts) = []) ∧
    ((beforeCreate cfg rand opts).addCalls = [] →
      unmounted (beforeCreate cfg rand opts) = []) := by
  intro cfg rand opts
  by_cases ht : (opts.i18nBlocks.isNone && opts.i18nOptions.isNone) = true
  · simp [beforeCreate, ht, unmounted]
  · rw [Bool.not_eq_true] at ht
    have hmap : unmounted (beforeCreate cfg rand opts) =
        (beforeCreate cfg rand opts).addCalls.map (fun a => (a.lng, a.ns)) := by
      simp only [beforeCreate, ht, Bool.false_eq_true, if_false, unmounted,
        Option.getD_some, List.map_map]
      refine List.map_congr_left ?_
      intro e he
      exact (componentEffects_mem cfg (localNsOf opts.name rand) opts e he).1
    refine ⟨hmap, by rw [hmap]; simp, ?_, ?_⟩
    · intro hnone
      simp only [beforeCreate, ht, Bool.false_eq_true, if_false] at hnone
      exact absurd hnone (by simp)
    · intro hcalls
      simp only [beforeCreate, ht, Bool.false_eq_true, if_false, List.map_eq_nil_iff]
        at hcalls
      simp only [beforeCreate, ht, Bool.false_eq_true, if_false, unmounted,
        Option.getD_some, hcalls, List.map_nil]

/-- Claim C2 witness: a component with neither i18n blocks nor
i18nOptions never allocates a bundle list, and its teardown performs no
removal. -/
theorem c2_witness :
    unmounted (beforeCreate ⟨none, none, false⟩ "1" ⟨none, none, none⟩) = [] :=
  (c2_teardown ⟨none, none, false⟩ "1" ⟨none, none, none⟩).2.2.1 rfl

/-- Claim C3: with a configured (nonempty) `keyPrefix`, a key already
containing the catalog's string namespace separator is passed downstream
unchanged, any other key is prefixed with `keyPrefix` and a dot; with no
`keyPrefix` every key passes unchanged; and the two worked examples hold
for separator `:` and prefix `greet`. -/
theorem c3_key_prefixing : ∀ (kp sep key : String), kp ≠ "" →
    (mkTranslate none (some sep) key = key ∧
     (jsIncludes key sep = true → mkTranslate (some kp) (some sep) key = key) ∧
     (jsIncludes key sep = false →
       mkTranslate (some kp) (some sep) key = kp ++ "." ++ key) ∧
     mkTranslate (some "greet") (some ":") "ns:key" = "ns:key" ∧
     mkTranslate (some "greet") (some ":") "key" = "greet.key") := by
  intro kp sep key hkp
  refine ⟨?_, ?_, ?_, by decide, by decide⟩
  · simp [mkTranslate]
  · intro h
    simp [mkTranslate, includesNs, h]
  · intro h
    simp [mkTranslate, includesNs, h, hkp]

/-- Claim C3 witness: the two worked examples, obtained by applying the
claim theorem at prefix `greet` and separator `:`. -/
theorem c3_witness :
    mkTranslate (some "greet") (some ":") "ns:key" = "ns:key" ∧
    mkTranslate (some "greet") (some ":") "key" = "greet.key" :=
  ⟨(c3_key_prefixing "greet" ":" "ns:key" (by decide)).2.2.2.1,
   (c3_key_prefixing "greet" ":" "key" (by decide)).2.2.2.2⟩

/-- Claim C4: the global translate function reads the reactivity marker
first and unconditionally; when the catalog is not yet initialized it
returns the raw key with no lookup call; when initialized it delegates
to the component's resolved translate function when present, else to the
generic catalog lookup. -/
theorem c4_global_t : ∀ (tr : Option (String → String)) (g : String → String)
    (key : String),
    dollarT false tr g key = ([TEvent.observe], key) ∧
    dollarT true tr g key = ([TEvent.observe, TEvent.lookupCall key], (tr.getD g) key) ∧
    ∀ b, ((dollarT b tr g key).1).head? = some TEvent.observe := by
  intro tr g key
  refine ⟨rfl, rfl, ?_⟩
  intro b
  cases b <;> rfl

/-- Claim C7: a component that registered at least one local bundle gets
the component-local namespace prepended to the namespace list used to
build its lookup function, ahead of all declared or default namespaces. -/
theorem c7_local_ns_first : ∀ (cfg : I18nextCfg) (rand : String) (opts : CompOpts),
    (beforeCreate cfg rand opts).bundles.getD [] ≠ [] →
    (beforeCreate cfg rand opts).ns =
      some (localNsOf opts.name rand ::
        ((handleI18nOptions cfg (localNsOf opts.name rand) opts.i18nOptions).ns.getD
          [])) := by
  intro cfg rand opts h
  by_cases ht : (opts.i18nBlocks.isNone && opts.i18nOptions.isNone) = true
  · exact absurd (by simp [beforeCreate, ht, unmounted]) h
  · rw [Bool.not_eq_true] at ht
    simp only [beforeCreate, ht, Bool.false_eq_true, if_false, Option.getD_some] at h ⊢
    rw [if_neg (by simpa [List.isEmpty_iff] using h)]

/-- Claim C7 witness: a component carrying one inline i18n block ends up
with its local namespace first in the namespace list. -/
theorem c7_witness :
    (beforeCreate ⟨none, some ":", true⟩ "42"
        ⟨some "Comp", some [[("en", Msg.str "hi")]], none⟩).ns =
      some (localNsOf (some "Comp") "42" ::
        ((handleI18nOptions ⟨none, some ":", true⟩ (localNsOf (some "Comp") "42")
            none).ns.getD [])) :=
  c7_local_ns_first ⟨none, some ":", true⟩ "42"
    ⟨some "Comp", some [[("en", Msg.str "hi")]], none⟩ (by decide)

/-- Claim C8: every `addResourceBundle` call a component makes carries
the fixed flags `deep = true` and `overwrite = false` and targets the
component-local namespace, and the registered-bundle list is exactly the
`(language, localNamespace)` pairs of those calls, appended in call
order. -/
theorem c8_add_resource_flags : ∀ (cfg : I18nextCfg) (rand : String) (opts : CompOpts),
    (∀ a ∈ (beforeCreate cfg rand opts).addCalls,
      a.deep = true ∧ a.overwrite = false ∧ a.ns = localNsOf opts.name rand) ∧
    (beforeCreate cfg rand opts).bundles.getD [] =
      (beforeCreate cfg rand opts).addCalls.map (fun a => (a.lng, a.ns)) := by
  intro cfg rand opts
  by_cases ht : (opts.i18nBlocks.isNone && opts.i18nOptions.isNone) = true
  · simp [beforeCreate, ht]
  · rw [Bool.not_eq_true] at ht
    constructor
    · intro a ha
      simp only [beforeCreate, ht, Bool.false_eq_true, if_false, List.mem_map] at ha
      obtain ⟨e, he, rfl⟩ := ha
      obtain ⟨-, hd, hov, hns⟩ :=
        componentEffects_mem cfg (localNsOf opts.name rand) opts e he
      exact ⟨hd, hov, hns⟩
    · simp only [beforeCreate, ht, Bool.false_eq_true, if_false, Option.getD_some,
        List.map_map]
      refine List.map_congr_left ?_
      intro e he
      exact (componentEffects_mem cfg (localNsOf opts.name rand) opts e he).1

/-- Claim C8 witness: the single call made for one inline bundle carries
`deep = true`, `overwrite = false` and the local namespace. -/
theorem c8_witness :
    (⟨"en", "Comp-42", Msg.str "hi", true, false⟩ : AddCall).deep = true ∧
    (⟨"en", "Comp-42", Msg.str "hi", true, false⟩ : AddCall).overwrite = false ∧
    (⟨"en", "Comp-42", Msg.str "hi", true, false⟩ : AddCall).ns =
      localNsOf (some "Comp") "42" :=
  (c8_add_resource_flags ⟨none, some ":", true⟩ "42"
      ⟨some "Comp", some [[("en", Msg.str "hi")]], none⟩).1
    ⟨"en", "Comp-42", Msg.str "hi", true, false⟩
    (by show _ ∈ [_]; exact List.mem_singleton_self _)

/-- Claim C6 witness: the slot match on the template consisting of a
single slot named `a` has the characterized shape. -/
theorem c6_witness :
    ∃ ws1 ws2, (∀ c ∈ ws1, isWsChar c = true) ∧ (∀ c ∈ ws2, isWsChar c = true) ∧
      (['a'] : List Char) ≠ [] ∧ (∀ c ∈ (['a'] : List Char), isNameChar c = true) ∧
      "\x7ba\x7d".data = '\x7b' :: (ws1 ++ ['a'] ++ ws2 ++ ['\x7d']) ∧
      "\x7ba\x7d".data = "\x7ba\x7d".data ++ ([] : List Char) :=
  (c6_slot_recognition "\x7ba\x7d".data "\x7ba\x7d".data ['a'] []).1.mp (by decide)

/-- Claim C10 witness: a template with zero placeholders renders to the
single element equal to the whole input. -/
theorem c10_witness : render (fun _ => none) "xy".data = ["xy".data] :=
  (c10_output_shape (fun _ => none) "xy".data).2.2.2.1 (by decide)

/-! ## Fuel hygiene: any sufficient fuel scans identically -/

theorem findFrom_none_of_lt (tmpl : List Char) (p : Nat) (h : tmpl.length < p) :
    findFrom tmpl p = none := by
  rw [findFrom, List.drop_eq_nil_of_le (le_of_lt h)]
  rfl

/-- The scan is independent of the fuel bound as soon as the bound
covers the remaining input, so `tmpl.length + 1` in `parse` is not a
tuning knob: every sufficient bound produces the same segments. -/
theorem parseLoop_fuel (tmpl : List Char) : ∀ (fuel1 fuel2 p : Nat),
    tmpl.length + 1 ≤ fuel1 + p → tmpl.length + 1 ≤ fuel2 + p →
    parseLoop tmpl fuel1 p = parseLoop tmpl fuel2 p := by
  intro fuel1
  induction fuel1 with
  | zero =>
    intro fuel2 p h1 h2
    have hn : findFrom tmpl p = none := findFrom_none_of_lt tmpl p (by omega)
    cases fuel2 with
    | zero => rfl
    | succ fuel2 => rw [parseLoop, parseLoop, hn]
  | succ fuel1 ih =>
    intro fuel2 p h1 h2
    cases fuel2 with
    | zero =>
      have hn : findFrom tmpl p = none := findFrom_none_of_lt tmpl p (by omega)
      rw [parseLoop, parseLoop, hn]
    | succ fuel2 =>
      rw [parseLoop, parseLoop]
      cases hf : findFrom tmpl p with
      | none => rfl
      | some v =>
        obtain ⟨i, m, nm⟩ := v
        obtain ⟨hpi, -, -, hm1⟩ := findFrom_some tmpl p i m nm hf
        simp only
        rw [ih fuel2 (i + m.length) (by omega) (by omega)]
